import Mathlib

/-!
Verification development for the reconciliation engine of a
configuration-as-code tool for a Jenkins server
(`jenkins_jobs/builder.py` and the view-emission modules).

The Python source is shallowly embedded: dictionaries become association
lists where the most recent binding wins, exceptions become `Except`
results, and the stateful `Builder` / `Jenkins` / `CacheStorage` objects
become explicit state records threaded through the functions.
-/

namespace JenkinsJobs

/-- Python exception classes that the embedded code can raise. -/
inductive PyErr where
  | yamlError      -- yaml.YAMLError raised by yaml.load
  | parseError     -- xml.etree.ElementTree.ParseError
  | nameError      -- NameError (reference to an unbound name)
  | keyError       -- KeyError (subscript of a missing dict key)
  | ioError        -- IOError with an errno other than EPIPE
  | notFound       -- remote error: entity does not exist on the server
deriving DecidableEq, Repr

/-- Lexicographic order on code-point lists: the embedding of Python's
`str` comparison (`<=`) used by `list.sort(key=...)` on names.  Written
structurally so that the kernel can evaluate it on concrete strings. -/
def lexLe : List Char → List Char → Bool
  | [], _ => true
  | _ :: _, [] => false
  | c :: cs, d :: ds =>
    if c.toNat < d.toNat then true
    else if d.toNat < c.toNat then false
    else lexLe cs ds

theorem lexLe_total : ∀ (l₁ l₂ : List Char), lexLe l₁ l₂ = true ∨ lexLe l₂ l₁ = true := by
  intro l₁
  induction l₁ with
  | nil => intro l₂; left; rfl
  | cons c cs ih =>
    intro l₂
    cases l₂ with
    | nil => right; rfl
    | cons d ds =>
      by_cases h₁ : c.toNat < d.toNat
      · left; simp [lexLe, h₁]
      · by_cases h₂ : d.toNat < c.toNat
        · right; simp [lexLe, h₂]
        · rcases ih ds with h | h
          · left; simp [lexLe, h₁, h₂, h]
          · right; simp [lexLe, h₁, h₂, h]

theorem lexLe_cons_iff (c d : Char) (cs ds : List Char) :
    lexLe (c :: cs) (d :: ds) = true ↔
      (c.toNat < d.toNat ∨
        (¬ c.toNat < d.toNat ∧ ¬ d.toNat < c.toNat ∧ lexLe cs ds = true)) := by
  simp only [lexLe]
  by_cases h₁ : c.toNat < d.toNat
  · simp [h₁]
  · by_cases h₂ : d.toNat < c.toNat
    · simp [h₁, h₂]
    · simp [h₁, h₂]

theorem lexLe_trans : ∀ (l₁ l₂ l₃ : List Char),
    lexLe l₁ l₂ = true → lexLe l₂ l₃ = true → lexLe l₁ l₃ = true := by
  intro l₁
  induction l₁ with
  | nil => intro l₂ l₃ _ _; rfl
  | cons c cs ih =>
    intro l₂ l₃ h12 h23
    cases l₂ with
    | nil => exact absurd h12 (by simp [lexLe])
    | cons d ds =>
      cases l₃ with
      | nil => exact absurd h23 (by simp [lexLe])
      | cons e es =>
        rcases (lexLe_cons_iff c d cs ds).mp h12 with hcd | ⟨hcd1, hcd2, hcd3⟩ <;>
          rcases (lexLe_cons_iff d e ds es).mp h23 with hde | ⟨hde1, hde2, hde3⟩ <;>
          refine (lexLe_cons_iff c e cs es).mpr ?_
        · exact Or.inl (by omega)
        · exact Or.inl (by omega)
        · exact Or.inl (by omega)
        · exact Or.inr ⟨by omega, by omega, ih ds es hcd3 hde3⟩

/-- Embedding of Python's `str.endswith`: true iff `m` is a suffix of `s`. -/
def pyEndswith (s m : String) : Bool := List.isSuffixOf m.data s.data

theorem pyEndswith_iff (s m : String) : pyEndswith s m = true ↔ m.data <:+ s.data := by
  unfold pyEndswith
  rw [List.isSuffixOf, List.isPrefixOf_iff_prefix, List.reverse_prefix]

/-- State of `CacheStorage` (builder.py lines 35-97): the in-memory
fingerprint dictionary `self.data`, modelled as an association list in
which the most recently added binding for a key shadows older ones. -/
structure CacheStorage where
  data : List (String × String)
deriving DecidableEq, Repr

namespace CacheStorage

/-- Embedding of `self.data[job]`: the current binding of `job`. -/
def lookup (c : CacheStorage) (job : String) : Option String :=
  c.data.lookup job

/-- CacheStorage.set (builder.py line 68): `self.data[job] = md5`. -/
def set (c : CacheStorage) (job md5 : String) : CacheStorage :=
  ⟨(job, md5) :: c.data⟩

/-- CacheStorage.is_cached (builder.py lines 71-74):
`if job in self.data: return True; return False`. -/
def is_cached (c : CacheStorage) (job : String) : Bool :=
  (c.lookup job).isSome

/-- CacheStorage.has_changed (builder.py lines 76-79):
`if job in self.data and self.data[job] == md5: return False; return True`. -/
def has_changed (c : CacheStorage) (job md5 : String) : Bool :=
  if c.lookup job == some md5 then false else true

end CacheStorage

/-- Outcome of `yaml.load` on the bytes of an existing cache file:
either a mapping, or a raised `yaml.YAMLError` for content that does
not parse. -/
inductive YamlFile where
  | ok (m : List (String × String))
  | failed
deriving DecidableEq, Repr

/-- CacheStorage.__init__ (builder.py lines 43-54), content-handling part.
`file = none` means `os.path.isfile(self.cachefilename)` is false (no
prior cache file); `file = some f` describes the existing file's content.
The source reads
`if flush or not os.path.isfile(...): self.data = {}
 else: self.data = yaml.load(yfile)`
with no exception handling around `yaml.load`. -/
def cacheInit (flush : Bool) (file : Option YamlFile) : Except PyErr CacheStorage :=
  if flush || file.isNone then
    .ok ⟨[]⟩
  else
    match file with
    | none => .ok ⟨[]⟩
    | some .failed => .error .yamlError
    | some (.ok m) => .ok ⟨m⟩

/-- Modelled from the spec: `MAGIC_MANAGE_STRING` is imported from
`jenkins_jobs.constants`, which is not part of the sources; the spec
(section 4.4) says only that it is "a fixed, implementation-constant
marker string".  Its exact text is immaterial to every theorem below. -/
def MAGIC_MANAGE_STRING : String := "<!-- Managed by Jenkins Job Builder -->"

/-- Result of fetching and parsing one remote entity's configuration XML
inside `Jenkins.is_managed` (builder.py lines 218-226):
`malformed` — `XML.fromstring(xml)` raises `ParseError`;
`noDescription` — the parsed document has no `description` element, so
`out.find(".//description")` returns `None`;
`descriptionNoText` — the element exists but its `.text` is `None`;
`description s` — the element's text is the string `s`. -/
inductive ConfigXml where
  | malformed
  | noDescription
  | descriptionNoText
  | description (s : String)
deriving DecidableEq, Repr

/-- Jenkins.is_managed (builder.py lines 218-226), after the config
fetch.  The `try` block catches only `(TypeError, AttributeError)`:
`None.text` and `None.endswith` raise `AttributeError` and fall through
to `return False`, but the `ParseError` raised by `XML.fromstring` on a
malformed document is not among the caught classes and propagates. -/
def is_managed (cfg : ConfigXml) : Except PyErr Bool :=
  match cfg with
  | .malformed => .error .parseError
  | .noDescription => .ok false
  | .descriptionNoText => .ok false
  | .description s => .ok (pyEndswith s MAGIC_MANAGE_STRING)

/-- The boolean a `ConfigXml` would yield when `is_managed` returns
normally (false on every abnormal description). -/
def managedB (cfg : ConfigXml) : Bool :=
  match cfg with
  | .description s => pyEndswith s MAGIC_MANAGE_STRING
  | _ => false

theorem is_managed_eq_ok (cfg : ConfigXml) (h : cfg ≠ ConfigXml.malformed) :
    is_managed cfg = .ok (managedB cfg) := by
  cases cfg with
  | malformed => exact absurd rfl h
  | noDescription => rfl
  | descriptionNoText => rfl
  | description s => rfl

/-- State of the `Jenkins` facade (builder.py lines 100-226) as the
deletion flow sees it: the server's jobs (name to configuration
document, abstracted to its `ConfigXml` parse outcome), and the
memoized listing `self._jobs` (with `self._job_list`, the name set
derived from it at first access, collapsed into the same field). -/
structure JenkinsF where
  server : List (String × ConfigXml)
  memo_jobs : Option (List String)
deriving DecidableEq, Repr

namespace JenkinsF

/-- Jenkins.jobs property (builder.py lines 108-114): fetch the listing
from the server on first access, then serve the memoized copy. -/
def jobs_prop (j : JenkinsF) : List String × JenkinsF :=
  match j.memo_jobs with
  | some l => (l, j)
  | none => (j.server.map Prod.fst, { j with memo_jobs := some (j.server.map Prod.fst) })

/-- Jenkins.get_jobs (builder.py lines 206-210): `cache=False` clears the
memoized listing before the property access re-fetches it. -/
def get_jobs (cache : Bool) (j : JenkinsF) : List String × JenkinsF :=
  let j' := if cache then j else { j with memo_jobs := none }
  j'.jobs_prop

/-- Jenkins.is_job (builder.py lines 144-150): the memoized listing
first, then a direct remote existence query as fallback. -/
def is_job (j : JenkinsF) (n : String) : Bool × JenkinsF :=
  let p := j.jobs_prop
  if p.1.contains n then (true, p.2)
  else ((p.2.server.map Prod.fst).contains n, p.2)

/-- Jenkins.delete_job (builder.py lines 156-159): issue the remote
delete only if `is_job`; the delete removes the entity from the server
(the memoized listing is not updated). -/
def delete_job (j : JenkinsF) (n : String) : JenkinsF :=
  let p := j.is_job n
  if p.1 then { p.2 with server := p.2.server.eraseP (fun q => q.1 == n) } else p.2

/-- Jenkins.is_managed (builder.py lines 218-226) behind the config
fetch: `get_job_config` on a name the server does not know is a remote
error; otherwise the parse/suffix check of `is_managed` runs. -/
def is_managedR (j : JenkinsF) (n : String) : Except PyErr Bool :=
  match j.server.lookup n with
  | none => .error .notFound
  | some cfg => is_managed cfg

end JenkinsF

/-- Builder-side state for the deletion flow: the facade and the
fingerprint cache, plus a ghost field `iterated` recording the listing
`delete_old_managed` looped over (observation only, no behavior). -/
structure DState where
  jenkins : JenkinsF
  cache : CacheStorage
  iterated : List String
deriving DecidableEq, Repr

/-- Builder.delete_job (builder.py lines 309-322) in its single-name
form (`fn=None`): delete through the facade, then invalidate the cache
record by setting it to the empty string if one exists. -/
def builder_delete_job (n : String) (st : DState) : DState :=
  let j := st.jenkins.delete_job n
  let c := if st.cache.is_cached n then st.cache.set n "" else st.cache
  { st with jenkins := j, cache := c }

/-- Loop of Builder.delete_old_managed (builder.py lines 297-307): for
each listed name, `if job['name'] not in keep and
self.jenkins.is_managed(job['name'])`, delete it and count it. -/
def delete_loop (keep : List String) : List String → DState → Nat → Except PyErr (Nat × DState)
  | [], st, count => .ok (count, st)
  | n :: rest, st, count =>
    if keep.contains n then
      delete_loop keep rest st count
    else
      match st.jenkins.is_managedR n with
      | .error e => .error e
      | .ok true => delete_loop keep rest (builder_delete_job n st) (count + 1)
      | .ok false => delete_loop keep rest st count

/-- Builder.delete_old_managed (builder.py lines 292-307) with an
explicit keep list (the `keep=None` default, which derives the list from
the parsed jobs, is not exercised by the claims).  Line 293 is
`jobs = self.jenkins.get_jobs()` — the default `cache=True`. -/
def delete_old_managed (keep : List String) (st : DState) : Except PyErr (Nat × DState) :=
  let p := JenkinsF.get_jobs true st.jenkins
  delete_loop keep p.1 { st with jenkins := p.2, iterated := p.1 } 0

/-- The boolean that the managed check yields for name `n` against the
current server state (false when `n` is unknown to the server). -/
def managedOn (st : DState) (n : String) : Bool :=
  match st.jenkins.server.lookup n with
  | some cfg => managedB cfg
  | none => false

section AssocHelpers

variable {β : Type}

theorem lookup_eq_none_iff (l : List (String × β)) (n : String) :
    l.lookup n = none ↔ n ∉ l.map Prod.fst := by
  induction l with
  | nil => simp
  | cons p rest ih =>
    obtain ⟨k, v⟩ := p
    by_cases hk : n = k
    · subst hk
      simp [List.lookup_cons]
    · have hb : (n == k) = false := beq_eq_false_iff_ne.mpr hk
      simp [List.lookup_cons, hb, hk, ih]

theorem lookup_mem {l : List (String × β)} {n : String} {v : β}
    (h : l.lookup n = some v) : (n, v) ∈ l := by
  induction l with
  | nil => simp [List.lookup] at h
  | cons p rest ih =>
    obtain ⟨k, w⟩ := p
    by_cases hk : n = k
    · subst hk
      rw [List.lookup_cons] at h
      simp only [beq_self_eq_true] at h
      injection h with h
      subst h
      exact List.mem_cons_self _ _
    · have hb : (n == k) = false := beq_eq_false_iff_ne.mpr hk
      rw [List.lookup_cons] at h
      simp only [hb] at h
      exact List.mem_cons.mpr (Or.inr (ih h))

theorem lookup_of_mem_nodup {l : List (String × β)} {p : String × β}
    (hmem : p ∈ l) (hnd : (l.map Prod.fst).Nodup) : l.lookup p.1 = some p.2 := by
  induction l with
  | nil => simp at hmem
  | cons q rest ih =>
    obtain ⟨k, w⟩ := q
    rw [List.map_cons, List.nodup_cons] at hnd
    rcases List.mem_cons.mp hmem with h | h
    · subst h
      simp [List.lookup_cons]
    · have hk : p.1 ≠ k := by
        intro he
        have hp1 : p.1 ∈ rest.map Prod.fst := List.mem_map_of_mem Prod.fst h
        exact hnd.1 (he ▸ hp1)
      have hb : (p.1 == k) = false := beq_eq_false_iff_ne.mpr hk
      rw [List.lookup_cons]
      simp only [hb]
      exact ih h hnd.2

theorem mem_fst_of_lookup_isSome {l : List (String × β)} {n : String}
    (h : (l.lookup n).isSome) : n ∈ l.map Prod.fst := by
  by_contra hmem
  rw [← lookup_eq_none_iff] at hmem
  rw [hmem] at h
  exact Bool.noConfusion h

theorem lookup_eraseP_ne (l : List (String × β)) (n m : String) (h : m ≠ n) :
    (l.eraseP (fun q => q.1 == n)).lookup m = l.lookup m := by
  induction l with
  | nil => rfl
  | cons p rest ih =>
    obtain ⟨k, v⟩ := p
    by_cases hk : k = n
    · subst hk
      have hb : (m == k) = false := beq_eq_false_iff_ne.mpr h
      simp only [List.eraseP_cons, beq_self_eq_true, cond_true, List.lookup_cons, hb]
    · have hb : (k == n) = false := beq_eq_false_iff_ne.mpr hk
      simp only [List.eraseP_cons, hb, cond_false, List.lookup_cons]
      by_cases hm : m = k
      · subst hm
        simp only [beq_self_eq_true]
      · have hb2 : (m == k) = false := beq_eq_false_iff_ne.mpr hm
        simp only [hb2]
        exact ih

theorem lookup_eraseP_self (l : List (String × β)) (n : String)
    (hnd : (l.map Prod.fst).Nodup) :
    (l.eraseP (fun q => q.1 == n)).lookup n = none := by
  induction l with
  | nil => rfl
  | cons p rest ih =>
    obtain ⟨k, v⟩ := p
    rw [List.map_cons, List.nodup_cons] at hnd
    by_cases hk : k = n
    · subst hk
      simp only [List.eraseP_cons, beq_self_eq_true, cond_true]
      exact (lookup_eq_none_iff rest k).mpr hnd.1
    · have hb : (k == n) = false := beq_eq_false_iff_ne.mpr hk
      have hb2 : (n == k) = false := beq_eq_false_iff_ne.mpr (Ne.symm hk)
      simp only [List.eraseP_cons, hb, cond_false, List.lookup_cons, hb2]
      exact ih hnd.2

theorem nodup_fst_eraseP {l : List (String × β)} {q : String × β → Bool}
    (hnd : (l.map Prod.fst).Nodup) : ((l.eraseP q).map Prod.fst).Nodup :=
  hnd.sublist (List.Sublist.map Prod.fst (List.eraseP_sublist l))

end AssocHelpers

theorem JenkinsF.jobs_prop_some (j : JenkinsF) (L : List String)
    (hL : j.memo_jobs = some L) : j.jobs_prop = (L, j) := by
  unfold JenkinsF.jobs_prop
  rw [hL]

theorem JenkinsF.is_job_of_memo (j : JenkinsF) (n : String) (L : List String)
    (hL : j.memo_jobs = some L) :
    j.is_job n = (if L.contains n then true else (j.server.map Prod.fst).contains n, j) := by
  unfold JenkinsF.is_job
  rw [JenkinsF.jobs_prop_some j L hL]
  by_cases hc : L.contains n = true
  · rw [if_pos hc, if_pos hc]
  · rw [if_neg hc, if_neg hc]

theorem JenkinsF.delete_job_eq (j : JenkinsF) (n : String)
    (hm : j.memo_jobs.isSome) (hs : (j.server.lookup n).isSome) :
    j.delete_job n = { j with server := j.server.eraseP (fun q => q.1 == n) } := by
  obtain ⟨L, hL⟩ := Option.isSome_iff_exists.mp hm
  have hc : (j.server.map Prod.fst).contains n = true :=
    List.elem_iff.mpr (mem_fst_of_lookup_isSome hs)
  unfold JenkinsF.delete_job
  rw [JenkinsF.is_job_of_memo j n L hL]
  by_cases hLc : L.contains n = true
  · rw [if_pos hLc]
    rfl
  · rw [if_neg hLc, hc]
    rfl

theorem JenkinsF.delete_job_memo (j : JenkinsF) (n : String)
    (hm : j.memo_jobs.isSome) : (j.delete_job n).memo_jobs = j.memo_jobs := by
  obtain ⟨L, hL⟩ := Option.isSome_iff_exists.mp hm
  unfold JenkinsF.delete_job
  rw [JenkinsF.is_job_of_memo j n L hL]
  by_cases hb : (if L.contains n then true else (j.server.map Prod.fst).contains n) = true
  · rw [if_pos hb]
  · rw [if_neg hb]

/-- A configuration whose description carries the managed marker. -/
def cfgManaged : ConfigXml :=
  ConfigXml.description ("built by tool\n" ++ MAGIC_MANAGE_STRING)

/-- A configuration whose description does not carry the marker. -/
def cfgUnmanaged : ConfigXml := ConfigXml.description "plain description"

/-- Concrete builder state for the C5 example: a fresh session against
the remote set keep-me (managed), old-job (managed), other (unmanaged). -/
def stC5 : DState :=
  ⟨⟨[("keep-me", cfgManaged), ("old-job", cfgManaged), ("other", cfgUnmanaged)], none⟩, ⟨[]⟩, []⟩

/-- Concrete builder state for the C6 counterexample: a listing ["a"]
memoized earlier in the session, while the server now also has "b". -/
def stC6 : DState :=
  ⟨⟨[("a", cfgManaged), ("b", cfgManaged)], some ["a"]⟩, ⟨[]⟩, []⟩

/-- The state `delete_old_managed [] stC6` ends in. -/
def stC6out : DState :=
  ⟨⟨[("b", cfgManaged)], some ["a"]⟩, ⟨[]⟩, ["a"]⟩

/-- A desired entity handed to the reconciler by the external compiler:
its name and the content hash of its generated XML (`item.md5()`); the
document itself is abstracted by the hash, which `item.output()` pushes
and `get_job_md5` recovers (the compiler contract makes the hash a
function of the document). -/
structure Entity where
  name : String
  md5 : String
deriving DecidableEq, Repr

/-- The two manageable entity kinds. -/
inductive Kind where
  | job
  | view
deriving DecidableEq, Repr

/-- Remote server state for the update flow: per kind, each existing
entity's name with the content hash of its stored configuration. -/
structure RemoteJV where
  jobs : List (String × String)
  views : List (String × String)
deriving DecidableEq, Repr

def RemoteJV.entries (k : Kind) (r : RemoteJV) : List (String × String) :=
  match k with
  | .job => r.jobs
  | .view => r.views

def RemoteJV.setEntry (k : Kind) (r : RemoteJV) (n v : String) : RemoteJV :=
  match k with
  | .job => { r with jobs := (n, v) :: r.jobs }
  | .view => { r with views := (n, v) :: r.views }

/-- Outcome of one `output.write(...)` call on a stream sink. -/
inductive WriteOutcome where
  | ok
  | epipe
  | ioerr
deriving DecidableEq, Repr

/-- The `output` argument of Builder.update_job: a directory path, or a
file-like stream whose k-th write attempt has outcome `outcomes k`. -/
inductive Output where
  | dir
  | stream (outcomes : Nat → WriteOutcome)

/-- Reconciler state threaded through Builder.update_job: the
fingerprint cache and the remote state, plus ghost observations — the
log of upsert (create/reconfigure) calls, a count of facade
invocations, the items written to the output sink, and the number of
stream write attempts so far. -/
structure UState where
  cache : CacheStorage
  remote : RemoteJV
  upserts : List (Kind × String)
  calls : Nat
  written : List Entity
  writeIdx : Nat
deriving DecidableEq, Repr

/-- Jenkins.is_job / is_view (builder.py lines 144-150, 174-180):
memoized listing first, then a direct server query as fallback — within
a session whose only remote mutations are this builder's own, the two
together compute server truth, which is what is modelled. -/
def jenkins_exists (k : Kind) (st : UState) (n : String) : Bool :=
  ((RemoteJV.entries k st.remote).lookup n).isSome

/-- Jenkins.get_job_md5 / get_view_md5 (builder.py lines 152-154,
182-184): the hash of the entity's live remote configuration (only ever
called on an existing entity). -/
def jenkins_get_md5 (k : Kind) (st : UState) (n : String) : String :=
  ((RemoteJV.entries k st.remote).lookup n).getD ""

/-- Jenkins.update_job / update_view (builder.py lines 136-142,
166-172): reconfigure an existing entity or create a missing one;
either way the server afterwards stores configuration with the pushed
document's hash. -/
def jenkins_upsert (k : Kind) (n md5 : String) (st : UState) : UState :=
  { st with remote := RemoteJV.setEntry k st.remote n md5,
            upserts := st.upserts ++ [(k, n)],
            calls := st.calls + 1 }

/-- The per-entity reconcile step of Builder.update_job (builder.py
lines 401-412 for a job, 419-429 for a view): seed the cache with the
remote hash on first contact with an existing entity, then upsert iff
the cache reports a change or the force flag is set.  Returns the new
state and this entity's contribution to the updated counter. -/
def reconcileEntity (k : Kind) (ignore_cache : Bool) (e : Entity) (st : UState) : UState × Nat :=
  let md5 := e.md5
  let st1 :=
    if jenkins_exists k st e.name && !(st.cache.is_cached e.name) then
      { st with cache := st.cache.set e.name (jenkins_get_md5 k st e.name),
                calls := st.calls + 2 }
    else { st with calls := st.calls + 1 }
  if st1.cache.has_changed e.name md5 || ignore_cache then
    let st2 := jenkins_upsert k e.name md5 st1
    ({ st2 with cache := st2.cache.set e.name md5 }, 1)
  else (st1, 0)

/-- Builder.write_xml (builder.py lines 351-372): a stream write may
raise — EPIPE is swallowed and reported as True ("stop processing"),
any other IOError re-raises; a directory output writes one file per
entity and returns False. -/
def write_xml (out : Output) (item : Entity) (st : UState) : Except PyErr (Bool × UState) :=
  match out with
  | .stream outcomes =>
    match outcomes st.writeIdx with
    | .ok => .ok (false, { st with written := st.written ++ [item], writeIdx := st.writeIdx + 1 })
    | .epipe => .ok (true, { st with writeIdx := st.writeIdx + 1 })
    | .ioerr => .error .ioError
  | .dir => .ok (false, { st with written := st.written ++ [item] })

/-- One pass of Builder.update_job over the sorted jobs or views
(builder.py lines 396-412 / 414-429): with an output sink each entity
is only written (a True from write_xml is the bare `return`, modelled as
a `none` count, and the reconcile branch is skipped by `continue`);
without one each entity is reconciled. -/
def entityLoop (k : Kind) (ignore_cache : Bool) (out : Option Output) :
    List Entity → UState → Nat → Except PyErr (UState × Option Nat)
  | [], st, count => .ok (st, some count)
  | e :: rest, st, count =>
    match out with
    | some o =>
      match write_xml o e st with
      | .error er => .error er
      | .ok (true, st1) => .ok (st1, none)
      | .ok (false, st1) => entityLoop k ignore_cache out rest st1 count
    | none =>
      let p := reconcileEntity k ignore_cache e st
      entityLoop k ignore_cache out rest p.1 (count + p.2)

/-- The string order of Python's `str` comparison, on entity names. -/
def entLe (a b : Entity) : Prop := lexLe a.name.data b.name.data = true

instance : DecidableRel entLe := fun a b => by
  unfold entLe
  infer_instance

instance : IsTotal Entity entLe := ⟨fun a b => lexLe_total a.name.data b.name.data⟩

instance : IsTrans Entity entLe :=
  ⟨fun a b c => lexLe_trans a.name.data b.name.data c.name.data⟩

/-- Python's `xml_jobs.sort(key=operator.attrgetter('name'))`
(builder.py lines 381-382): a stable ascending sort by name.  Stable
sorts by the same key agree extensionally, so it is modelled by a
stable insertion sort over the embedded string order. -/
def sortByName (es : List Entity) : List Entity := List.insertionSort entLe es

/-- The result tuple of Builder.update_job (builder.py lines 431-433). -/
structure UpdateResult where
  xml_jobs : List Entity
  xml_views : List Entity
  updated_jobs : Nat
  updated_views : Nat
deriving DecidableEq, Repr

/-- Builder.update_job (builder.py lines 374-433) after YAML expansion
and XML generation: sort jobs and views by name, run the job pass then
the view pass, and return the tuple — or `none` when a pass stopped on a
broken pipe (the bare `return` on lines 399 and 417). -/
def update_job (jobs views : List Entity) (out : Option Output) (ignore_cache : Bool)
    (st : UState) : Except PyErr (UState × Option UpdateResult) :=
  let xml_jobs := sortByName jobs
  let xml_views := sortByName views
  match entityLoop .job ignore_cache out xml_jobs st 0 with
  | .error er => .error er
  | .ok (st1, none) => .ok (st1, none)
  | .ok (st1, some uj) =>
    match entityLoop .view ignore_cache out xml_views st1 0 with
    | .error er => .error er
    | .ok (st2, none) => .ok (st2, none)
    | .ok (st2, some uv) => .ok (st2, some ⟨xml_jobs, xml_views, uj, uv⟩)

/-- A sink on which every write succeeds (a directory, or a stream whose
consumer keeps reading). -/
def writesOk (o : Output) : Prop :=
  match o with
  | .dir => True
  | .stream f => ∀ k, f k = WriteOutcome.ok

/-- How many stream write attempts `n` successful writes cost. -/
def streamCount (o : Output) (n : Nat) : Nat :=
  match o with
  | .dir => 0
  | .stream _ => n

/-- A fresh reconciler state over a given cache and remote. -/
def initU (c : CacheStorage) (r : RemoteJV) : UState := ⟨c, r, [], 0, [], 0⟩

theorem contains_eq_false {α : Type} [BEq α] [LawfulBEq α] {l : List α} {a : α}
    (h : a ∉ l) : l.contains a = false := by
  cases hc : l.contains a with
  | false => rfl
  | true => exact absurd (List.elem_iff.mp hc) h

theorem builder_delete_job_jenkins (n : String) (st : DState) :
    (builder_delete_job n st).jenkins = st.jenkins.delete_job n := rfl

theorem builder_delete_job_iterated (n : String) (st : DState) :
    (builder_delete_job n st).iterated = st.iterated := rfl

theorem delete_loop_memo (keep : List String) :
    ∀ (ns : List String) (st : DState) (count c : Nat) (st2 : DState),
      st.jenkins.memo_jobs.isSome →
      delete_loop keep ns st count = .ok (c, st2) →
      st2.jenkins.memo_jobs = st.jenkins.memo_jobs ∧ st2.iterated = st.iterated := by
  intro ns
  induction ns with
  | nil =>
    intro st count c st2 hm h
    simp only [delete_loop, Except.ok.injEq, Prod.mk.injEq] at h
    obtain ⟨h1, h2⟩ := h
    subst h2
    exact ⟨rfl, rfl⟩
  | cons n rest ih =>
    intro st count c st2 hm h
    simp only [delete_loop] at h
    by_cases hk : keep.contains n = true
    · rw [if_pos hk] at h
      exact ih st count c st2 hm h
    · rw [if_neg hk] at h
      cases hman : st.jenkins.is_managedR n with
      | error e =>
        rw [hman] at h
        exact Except.noConfusion h
      | ok b =>
        rw [hman] at h
        cases b with
        | false => exact ih st count c st2 hm h
        | true =>
          have hmm : (builder_delete_job n st).jenkins.memo_jobs = st.jenkins.memo_jobs :=
            JenkinsF.delete_job_memo st.jenkins n hm
          have hm2 : (builder_delete_job n st).jenkins.memo_jobs.isSome := by
            rw [hmm]
            exact hm
          obtain ⟨h1, h2⟩ := ih (builder_delete_job n st) (count + 1) c st2 hm2 h
          exact ⟨h1.trans hmm, h2⟩

theorem delete_loop_spec (keep : List String) :
    ∀ (ns : List String) (st : DState) (count : Nat),
      ns.Nodup →
      (st.jenkins.server.map Prod.fst).Nodup →
      st.jenkins.memo_jobs.isSome →
      (∀ n ∈ ns, ∃ cfg, st.jenkins.server.lookup n = some cfg ∧ cfg ≠ ConfigXml.malformed) →
      ∃ st2,
        delete_loop keep ns st count
          = .ok (count + (ns.filter (fun n => !(keep.contains n) && managedOn st n)).length, st2)
        ∧ ∀ m, st2.jenkins.server.lookup m =
            if ns.contains m && !(keep.contains m) && managedOn st m
            then none else st.jenkins.server.lookup m := by
  intro ns
  induction ns with
  | nil =>
    intro st count _ _ _ _
    refine ⟨st, by simp [delete_loop], ?_⟩
    intro m
    simp [List.contains]
  | cons n rest ih =>
    intro st count hnd0 hsrv hm hlk
    rw [List.nodup_cons] at hnd0
    obtain ⟨hn, hnd⟩ := hnd0
    obtain ⟨cfg, hcfg, hwf⟩ := hlk n (List.mem_cons_self n rest)
    have hman : st.jenkins.is_managedR n = .ok (managedB cfg) := by
      unfold JenkinsF.is_managedR
      rw [hcfg]
      exact is_managed_eq_ok cfg hwf
    have hmo : managedOn st n = managedB cfg := by
      unfold managedOn
      rw [hcfg]
    by_cases hk : keep.contains n = true
    · -- name kept: skip branch
      obtain ⟨st2, hrun, hlkspec⟩ :=
        ih st count hnd hsrv hm (fun n' hn' => hlk n' (List.mem_cons_of_mem n hn'))
      have hpn : (!(keep.contains n) && managedOn st n) = false := by
        rw [hk]
        rfl
      refine ⟨st2, ?_, ?_⟩
      · simp only [delete_loop]
        rw [if_pos hk, hrun, List.filter_cons, hpn]
        simp
      · intro m
        rw [hlkspec m]
        by_cases hmn : m = n
        · subst hmn
          have hcl : (rest.contains m && !(keep.contains m) && managedOn st m) = false := by
            rw [hk]
            simp
          have hcr : ((m :: rest).contains m && !(keep.contains m) && managedOn st m) = false := by
            rw [hk]
            simp
          rw [hcl, hcr]
        · have hb : (m == n) = false := beq_eq_false_iff_ne.mpr hmn
          simp only [List.contains_cons, hb, Bool.false_or]
    · by_cases hmg : managedB cfg = true
      · -- delete branch
        have hs : (st.jenkins.server.lookup n).isSome := by
          rw [hcfg]
          rfl
        have hdel : (builder_delete_job n st).jenkins
            = { st.jenkins with server := st.jenkins.server.eraseP (fun q => q.1 == n) } := by
          rw [builder_delete_job_jenkins]
          exact JenkinsF.delete_job_eq st.jenkins n hm hs
        have hsrv1 : (builder_delete_job n st).jenkins.server
            = st.jenkins.server.eraseP (fun q => q.1 == n) := by
          rw [hdel]
        have hnd1 : ((builder_delete_job n st).jenkins.server.map Prod.fst).Nodup := by
          rw [hsrv1]
          exact nodup_fst_eraseP hsrv
        have hm1 : (builder_delete_job n st).jenkins.memo_jobs.isSome := by
          rw [builder_delete_job_jenkins, JenkinsF.delete_job_memo st.jenkins n hm]
          exact hm
        have hlkpres : ∀ m, m ≠ n →
            (builder_delete_job n st).jenkins.server.lookup m = st.jenkins.server.lookup m := by
          intro m hmn
          rw [hsrv1]
          exact lookup_eraseP_ne _ n m hmn
        have hlk1 : ∀ n' ∈ rest, ∃ cfg',
            (builder_delete_job n st).jenkins.server.lookup n' = some cfg'
            ∧ cfg' ≠ ConfigXml.malformed := by
          intro n' hn'
          have hne : n' ≠ n := fun he => hn (he ▸ hn')
          rw [hlkpres n' hne]
          exact hlk n' (List.mem_cons_of_mem n hn')
        have hmo1 : ∀ m ∈ rest, managedOn (builder_delete_job n st) m = managedOn st m := by
          intro m hmn'
          have hne : m ≠ n := fun he => hn (he ▸ hmn')
          unfold managedOn
          rw [hlkpres m hne]
        obtain ⟨st2, hrun, hlkspec⟩ := ih (builder_delete_job n st) (count + 1) hnd hnd1 hm1 hlk1
        have hman' : st.jenkins.is_managedR n = .ok true := by
          rw [hman, hmg]
        have hpn : (!(keep.contains n) && managedOn st n) = true := by
          rw [Bool.eq_false_iff.mpr hk, hmo, hmg]
          rfl
        have hfilter : rest.filter (fun n' => !(keep.contains n') && managedOn (builder_delete_job n st) n')
            = rest.filter (fun n' => !(keep.contains n') && managedOn st n') :=
          List.filter_congr (fun x hx => by simp only [hmo1 x hx])
        refine ⟨st2, ?_, ?_⟩
        · simp only [delete_loop]
          rw [if_neg hk, hman']
          show delete_loop keep rest (builder_delete_job n st) (count + 1) = _
          rw [hrun, hfilter, List.filter_cons, hpn]
          simp only [if_true, List.length_cons]
          congr 2
          omega
        · intro m
          rw [hlkspec m]
          by_cases hmn : m = n
          · subst hmn
            have hrc : rest.contains m = false := contains_eq_false hn
            have hkf : keep.contains m = false := Bool.eq_false_iff.mpr hk
            have hnone : (builder_delete_job m st).jenkins.server.lookup m = none := by
              rw [hsrv1]
              exact lookup_eraseP_self _ m hsrv
            have hcl : (rest.contains m && !(keep.contains m)
                && managedOn (builder_delete_job m st) m) = false := by
              rw [hrc]
              simp
            have hcr : ((m :: rest).contains m && !(keep.contains m) && managedOn st m) = true := by
              rw [List.contains_cons, beq_self_eq_true, hkf, hmo, hmg]
              simp
            rw [hcl, hcr]
            simp [hnone]
          · have hb : (m == n) = false := beq_eq_false_iff_ne.mpr hmn
            have hlp := hlkpres m hmn
            have hmo2 : managedOn (builder_delete_job n st) m = managedOn st m := by
              unfold managedOn
              rw [hlp]
            rw [hmo2, hlp]
            simp only [List.contains_cons, hb, Bool.false_or]
      · -- unmanaged: left untouched
        have hmgf : managedB cfg = false := Bool.eq_false_iff.mpr hmg
        obtain ⟨st2, hrun, hlkspec⟩ :=
          ih st count hnd hsrv hm (fun n' hn' => hlk n' (List.mem_cons_of_mem n hn'))
        have hman' : st.jenkins.is_managedR n = .ok false := by
          rw [hman, hmgf]
        have hpn : (!(keep.contains n) && managedOn st n) = false := by
          rw [hmo, hmgf]
          simp
        refine ⟨st2, ?_, ?_⟩
        · simp only [delete_loop]
          rw [if_neg hk, hman']
          show delete_loop keep rest st count = _
          rw [hrun, List.filter_cons, hpn]
          simp
        · intro m
          rw [hlkspec m]
          by_cases hmn : m = n
          · subst hmn
            have hrc : rest.contains m = false := contains_eq_false hn
            have hcl : (rest.contains m && !(keep.contains m) && managedOn st m) = false := by
              rw [hrc]
              simp
            have hcr : ((m :: rest).contains m && !(keep.contains m) && managedOn st m) = false := by
              rw [hmo, hmgf]
              simp
            rw [hcl, hcr]
          · have hb : (m == n) = false := beq_eq_false_iff_ne.mpr hmn
            simp only [List.contains_cons, hb, Bool.false_or]

theorem CacheStorage.lookup_set_self (c : CacheStorage) (k v : String) :
    (c.set k v).lookup k = some v := by
  simp [CacheStorage.set, CacheStorage.lookup, List.lookup_cons]

theorem CacheStorage.lookup_set_ne (c : CacheStorage) (k v n : String) (h : n ≠ k) :
    (c.set k v).lookup n = c.lookup n := by
  have hb : (n == k) = false := beq_eq_false_iff_ne.mpr h
  simp [CacheStorage.set, CacheStorage.lookup, List.lookup_cons, hb]

theorem CacheStorage.has_changed_eq_false_iff (c : CacheStorage) (n m : String) :
    c.has_changed n m = false ↔ c.lookup n = some m := by
  by_cases h : c.lookup n = some m
  · simp [CacheStorage.has_changed, h]
  · have hb : (c.lookup n == some m) = false := beq_eq_false_iff_ne.mpr h
    simp [CacheStorage.has_changed, hb, h]

theorem CacheStorage.has_changed_eq_true_iff (c : CacheStorage) (n m : String) :
    c.has_changed n m = true ↔ c.lookup n ≠ some m := by
  rw [← Bool.not_eq_false, not_iff_not]
  exact c.has_changed_eq_false_iff n m

/-- C1: `has_changed(name, hash)` is true iff no cache record exists for
`name` (in particular on first sight) or the stored hash differs from
`hash`; after `set(name, hash)`, `has_changed(name, hash)` is false and
`has_changed(name, hash2)` is true for every `hash2 ≠ hash`. -/
theorem claim_C1_cache_has_changed (c : CacheStorage) (name hash : String) :
    (c.has_changed name hash = true ↔
      (c.lookup name = none ∨ ∃ h, c.lookup name = some h ∧ h ≠ hash))
    ∧ (c.set name hash).has_changed name hash = false
    ∧ ∀ hash2, hash2 ≠ hash → (c.set name hash).has_changed name hash2 = true := by
  refine ⟨?_, ?_, ?_⟩
  · rw [CacheStorage.has_changed_eq_true_iff]
    cases hl : c.lookup name with
    | none => simp
    | some v =>
      constructor
      · intro hne
        exact Or.inr ⟨v, rfl, fun he => hne (by rw [he])⟩
      · rintro (h | ⟨h, hh, hne⟩)
        · exact Option.noConfusion h
        · intro he
          apply hne
          have : v = h := by injection hh
          rw [← this]
          injection he
  · rw [CacheStorage.has_changed_eq_false_iff, CacheStorage.lookup_set_self]
  · intro hash2 hne
    rw [CacheStorage.has_changed_eq_true_iff, CacheStorage.lookup_set_self]
    intro he
    exact hne (Option.some.inj he).symm

/-- C1 witness: the theorem instantiated on a concrete store. -/
theorem claim_C1_cache_has_changed_witness :
    ((CacheStorage.mk []).set "job-a" "h1").has_changed "job-a" "h1" = false
    ∧ ((CacheStorage.mk []).set "job-a" "h1").has_changed "job-a" "h2" = true := by
  refine ⟨(claim_C1_cache_has_changed ⟨[]⟩ "job-a" "h1").2.1, ?_⟩
  exact (claim_C1_cache_has_changed ⟨[]⟩ "job-a" "h1").2.2 "h2" (by decide)

/-- C3 counterexample: with `flush` false and an existing cache file whose
content fails to parse, `CacheStorage.__init__` does not start from an
empty record set — the `yaml.load` exception propagates, because the
source wraps it in no handler. -/
theorem claim_C3_counterexample :
    cacheInit false (some YamlFile.failed) = .error .yamlError
    ∧ ¬ ∃ c, cacheInit false (some YamlFile.failed) = .ok c := by
  refine ⟨rfl, ?_⟩
  rintro ⟨c, hc⟩
  simp [cacheInit] at hc

/-- C3 amended: opening the cache starts from an empty record set when
`flush` is true or no prior cache file exists, and deserializes the
persisted mapping when the file parses; but a file that fails to parse
raises the parse error rather than being treated as empty. -/
theorem claim_C3_cache_open (flush : Bool) (file : Option YamlFile)
    (m : List (String × String)) :
    cacheInit true file = .ok ⟨[]⟩
    ∧ cacheInit flush none = .ok ⟨[]⟩
    ∧ cacheInit false (some (.ok m)) = .ok ⟨m⟩
    ∧ cacheInit false (some .failed) = .error .yamlError := by
  refine ⟨rfl, ?_, rfl, rfl⟩
  cases flush <;> rfl

/-- C4 counterexample: on a malformed XML document, `is_managed` does not
return false — `XML.fromstring` raises `ParseError`, which is not in the
caught classes `(TypeError, AttributeError)` and propagates. -/
theorem claim_C4_counterexample :
    is_managed ConfigXml.malformed = .error .parseError
    ∧ is_managed ConfigXml.malformed ≠ .ok false
    ∧ is_managed ConfigXml.malformed ≠ .ok true := by
  refine ⟨rfl, ?_, ?_⟩ <;> intro h <;> exact Except.noConfusion h

/-- C4 amended: `is_managed` returns false (rather than raising) when the
description element is missing or its text is `None`, and returns the
marker test on a present description; but a malformed XML document raises
`ParseError`, which propagates to the caller. -/
theorem claim_C4_is_managed_errors (s : String) :
    is_managed ConfigXml.noDescription = .ok false
    ∧ is_managed ConfigXml.descriptionNoText = .ok false
    ∧ is_managed (ConfigXml.description s) = .ok (pyEndswith s MAGIC_MANAGE_STRING)
    ∧ is_managed ConfigXml.malformed = .error .parseError :=
  ⟨rfl, rfl, rfl, rfl⟩

/-- C8: the managed-marker test is an exact suffix match on the full
description text, not a substring search: for every description string,
`is_managed` is true iff the text ends with the magic marker; the
description built-by-tool-newline-marker is managed, while
built-by-tool-marker-extra contains the marker but is not managed. -/
theorem claim_C8_suffix_match (s : String) :
    (is_managed (ConfigXml.description s) = .ok true ↔
      MAGIC_MANAGE_STRING.data <:+ s.data)
    ∧ is_managed (ConfigXml.description ("built by tool\n" ++ MAGIC_MANAGE_STRING)) = .ok true
    ∧ MAGIC_MANAGE_STRING.data <:+:
        ("built by tool" ++ MAGIC_MANAGE_STRING ++ "extra").data
    ∧ is_managed
        (ConfigXml.description ("built by tool" ++ MAGIC_MANAGE_STRING ++ "extra")) = .ok false := by
  have hred : is_managed (ConfigXml.description s)
      = Except.ok (pyEndswith s MAGIC_MANAGE_STRING) := rfl
  refine ⟨?_, ?_, by decide, ?_⟩
  · rw [hred]
    constructor
    · intro h
      exact (pyEndswith_iff s _).mp (by injection h)
    · intro h
      rw [(pyEndswith_iff s _).mpr h]
  · show Except.ok (pyEndswith ("built by tool\n" ++ MAGIC_MANAGE_STRING) MAGIC_MANAGE_STRING) = Except.ok true
    rw [show pyEndswith ("built by tool\n" ++ MAGIC_MANAGE_STRING) MAGIC_MANAGE_STRING = true by decide]
  · show Except.ok (pyEndswith ("built by tool" ++ MAGIC_MANAGE_STRING ++ "extra") MAGIC_MANAGE_STRING) = Except.ok false
    rw [show pyEndswith ("built by tool" ++ MAGIC_MANAGE_STRING ++ "extra") MAGIC_MANAGE_STRING = false by decide]

theorem JenkinsF.get_jobs_true_of_memo (j : JenkinsF) (L : List String)
    (hL : j.memo_jobs = some L) : JenkinsF.get_jobs true j = (L, j) := by
  show j.jobs_prop = (L, j)
  exact JenkinsF.jobs_prop_some j L hL

theorem JenkinsF.get_jobs_true_of_none (j : JenkinsF) (hL : j.memo_jobs = none) :
    JenkinsF.get_jobs true j
      = (j.server.map Prod.fst, { j with memo_jobs := some (j.server.map Prod.fst) }) := by
  show j.jobs_prop = _
  unfold JenkinsF.jobs_prop
  rw [hL]

/-- C5: `delete_old_managed` deletes exactly the remote entities whose
name is not kept and which pass the managed check, leaves all others
(kept or unmanaged) untouched, and returns the number deleted. -/
theorem claim_C5_delete_old_managed (keep : List String) (st : DState)
    (hmemo : st.jenkins.memo_jobs = none)
    (hnodup : (st.jenkins.server.map Prod.fst).Nodup)
    (hwf : ∀ p ∈ st.jenkins.server, p.2 ≠ ConfigXml.malformed) :
    ∃ st2,
      delete_old_managed keep st
        = .ok ((st.jenkins.server.filter
            (fun p => !(keep.contains p.1) && managedB p.2)).length, st2)
      ∧ ∀ p ∈ st.jenkins.server,
          if !(keep.contains p.1) && managedB p.2
          then st2.jenkins.server.lookup p.1 = none
          else st2.jenkins.server.lookup p.1 = some p.2 := by
  have hg := JenkinsF.get_jobs_true_of_none st.jenkins hmemo
  have hlookup : ∀ p ∈ st.jenkins.server, st.jenkins.server.lookup p.1 = some p.2 :=
    fun p hp => lookup_of_mem_nodup hp hnodup
  obtain ⟨st2, hrun, hlkspec⟩ :=
    delete_loop_spec keep (st.jenkins.server.map Prod.fst)
      { st with jenkins := { st.jenkins with memo_jobs := some (st.jenkins.server.map Prod.fst) },
                iterated := st.jenkins.server.map Prod.fst } 0
      hnodup hnodup rfl
      (by
        intro n hn
        rcases hmem : st.jenkins.server.lookup n with _ | cfg
        · exact absurd ((lookup_eq_none_iff _ n).mp hmem) (by simpa using hn)
        · exact ⟨cfg, rfl, hwf (n, cfg) (lookup_mem hmem)⟩)
  have hentry : delete_old_managed keep st
      = delete_loop keep (st.jenkins.server.map Prod.fst)
          { st with jenkins := { st.jenkins with memo_jobs := some (st.jenkins.server.map Prod.fst) },
                    iterated := st.jenkins.server.map Prod.fst } 0 := by
    unfold delete_old_managed
    rw [hg]
  have hmanOn : ∀ p ∈ st.jenkins.server,
      managedOn { st with jenkins := { st.jenkins with memo_jobs := some (st.jenkins.server.map Prod.fst) },
                          iterated := st.jenkins.server.map Prod.fst } p.1 = managedB p.2 := by
    intro p hp
    show managedOn _ p.1 = managedB p.2
    unfold managedOn
    show (match st.jenkins.server.lookup p.1 with
          | some cfg => managedB cfg
          | none => false) = managedB p.2
    rw [hlookup p hp]
  refine ⟨st2, ?_, ?_⟩
  · rw [hentry, hrun]
    have hflen : ((st.jenkins.server.map Prod.fst).filter
          (fun n => !(keep.contains n)
            && managedOn { st with jenkins := { st.jenkins with memo_jobs := some (st.jenkins.server.map Prod.fst) },
                                   iterated := st.jenkins.server.map Prod.fst } n)).length
        = (st.jenkins.server.filter (fun p => !(keep.contains p.1) && managedB p.2)).length := by
      rw [List.filter_map, List.length_map,
        List.filter_congr (fun p hp => by
          simp only [Function.comp]
          rw [hmanOn p hp])]
    rw [hflen, Nat.zero_add]
  · intro p hp
    have hcont : (st.jenkins.server.map Prod.fst).contains p.1 = true :=
      List.elem_iff.mpr (List.mem_map_of_mem Prod.fst hp)
    have hcond : ((st.jenkins.server.map Prod.fst).contains p.1 && !(keep.contains p.1)
        && managedOn { st with jenkins := { st.jenkins with memo_jobs := some (st.jenkins.server.map Prod.fst) },
                               iterated := st.jenkins.server.map Prod.fst } p.1)
        = (!(keep.contains p.1) && managedB p.2) := by
      rw [hcont, hmanOn p hp]
      simp
    by_cases hc : (!(keep.contains p.1) && managedB p.2) = true
    · rw [if_pos hc, hlkspec p.1, hcond, if_pos hc]
    · rw [if_neg hc, hlkspec p.1, hcond, if_neg hc]
      exact hlookup p hp

/-- C5 witness: the theorem instantiated on the claim's example — keep
keep-me against keep-me (managed), old-job (managed), other (unmanaged):
exactly old-job is deleted and the count is 1. -/
theorem claim_C5_delete_old_managed_witness :
    ∃ st2, delete_old_managed ["keep-me"] stC5 = .ok (1, st2)
      ∧ ∀ p ∈ stC5.jenkins.server,
          if !((["keep-me"] : List String).contains p.1) && managedB p.2
          then st2.jenkins.server.lookup p.1 = none
          else st2.jenkins.server.lookup p.1 = some p.2 :=
  claim_C5_delete_old_managed ["keep-me"] stC5 rfl (by decide) (by decide)

theorem delete_old_managed_uses_session_cache (keep : List String) (st : DState)
    (c : Nat) (st2 : DState) (h : delete_old_managed keep st = .ok (c, st2)) :
    (∀ L, st.jenkins.memo_jobs = some L →
        st2.iterated = L ∧ st2.jenkins.memo_jobs = some L)
    ∧ (st.jenkins.memo_jobs = none →
        st2.iterated = st.jenkins.server.map Prod.fst
        ∧ st2.jenkins.memo_jobs = some (st.jenkins.server.map Prod.fst)) := by
  constructor
  · intro L hL
    have hg := JenkinsF.get_jobs_true_of_memo st.jenkins L hL
    have hentry : delete_old_managed keep st
        = delete_loop keep L { st with jenkins := st.jenkins, iterated := L } 0 := by
      unfold delete_old_managed
      rw [hg]
    rw [hentry] at h
    have hm1 : ({ st with jenkins := st.jenkins, iterated := L } : DState).jenkins.memo_jobs.isSome := by
      show st.jenkins.memo_jobs.isSome
      rw [hL]
      rfl
    obtain ⟨h1, h2⟩ := delete_loop_memo keep L _ 0 c st2 hm1 h
    exact ⟨h2, h1.trans hL⟩
  · intro hL
    have hg := JenkinsF.get_jobs_true_of_none st.jenkins hL
    have hentry : delete_old_managed keep st
        = delete_loop keep (st.jenkins.server.map Prod.fst)
            { st with jenkins := { st.jenkins with memo_jobs := some (st.jenkins.server.map Prod.fst) },
                      iterated := st.jenkins.server.map Prod.fst } 0 := by
      unfold delete_old_managed
      rw [hg]
    rw [hentry] at h
    obtain ⟨h1, h2⟩ := delete_loop_memo keep (st.jenkins.server.map Prod.fst)
      { st with jenkins := { st.jenkins with memo_jobs := some (st.jenkins.server.map Prod.fst) },
                iterated := st.jenkins.server.map Prod.fst } 0 c st2 rfl h
    exact ⟨h2, h1⟩

/-- C6 counterexample: with a listing ["a"] memoized earlier in the
session while the server holds jobs "a" and "b" (both managed, neither
kept), `delete_old_managed` iterates only the stale memoized listing,
keeps the memo as-is, deletes only "a", and leaves the managed,
unkept "b" on the server — a forced re-fetch would have iterated
["a", "b"]. -/
theorem claim_C6_counterexample :
    delete_old_managed [] stC6 = .ok (1, stC6out)
    ∧ stC6out.iterated = ["a"]
    ∧ stC6.jenkins.server.map Prod.fst = ["a", "b"]
    ∧ stC6out.iterated ≠ stC6.jenkins.server.map Prod.fst
    ∧ stC6out.jenkins.memo_jobs = some ["a"]
    ∧ stC6out.jenkins.server.lookup "b" = some cfgManaged
    ∧ managedB cfgManaged = true := by
  refine ⟨rfl, rfl, rfl, ?_, rfl, rfl, by decide⟩
  decide

/-- C6 amended: `delete_old_managed` obtains its listing through
`get_jobs()` with the session cache enabled (default `cache=True`): a
listing memoized earlier in the session is reused as-is and stays
memoized; only when nothing is memoized yet does it fetch from the
server. -/
theorem claim_C6_get_jobs_not_fresh (keep : List String) (st : DState)
    (c : Nat) (st2 : DState) (h : delete_old_managed keep st = .ok (c, st2)) :
    (∀ L, st.jenkins.memo_jobs = some L →
        st2.iterated = L ∧ st2.jenkins.memo_jobs = some L)
    ∧ (st.jenkins.memo_jobs = none →
        st2.iterated = st.jenkins.server.map Prod.fst
        ∧ st2.jenkins.memo_jobs = some (st.jenkins.server.map Prod.fst)) :=
  delete_old_managed_uses_session_cache keep st c st2 h

/-- C6 witness: the amended theorem instantiated on the stale-memo state. -/
theorem claim_C6_get_jobs_not_fresh_witness :
    stC6out.iterated = ["a"] ∧ stC6out.jenkins.memo_jobs = some ["a"] :=
  (claim_C6_get_jobs_not_fresh [] stC6 1 stC6out rfl).1 ["a"] rfl

theorem reconcileEntity_skip (k : Kind) (e : Entity) (st : UState)
    (hlk : st.cache.lookup e.name = some e.md5) :
    reconcileEntity k false e st = ({ st with calls := st.calls + 1 }, 0) := by
  simp only [reconcileEntity]
  have hcached : st.cache.is_cached e.name = true := by
    unfold CacheStorage.is_cached
    rw [hlk]
    rfl
  have h1 : ¬ ((jenkins_exists k st e.name && !(st.cache.is_cached e.name)) = true) := by
    rw [hcached]
    simp
  rw [if_neg h1]
  have hproj : ({ st with calls := st.calls + 1 } : UState).cache = st.cache := rfl
  have hch : st.cache.has_changed e.name e.md5 = false :=
    (CacheStorage.has_changed_eq_false_iff _ _ _).mpr hlk
  have h2 : ¬ ((({ st with calls := st.calls + 1 } : UState).cache.has_changed e.name e.md5
      || false) = true) := by
    rw [hproj, hch]
    simp
  rw [if_neg h2]

theorem reconcileEntity_post (k : Kind) (ig : Bool) (e : Entity) (st : UState) :
    (reconcileEntity k ig e st).1.cache.lookup e.name = some e.md5 := by
  simp only [reconcileEntity]
  set st1 := (if jenkins_exists k st e.name && !(st.cache.is_cached e.name) then
      { st with cache := st.cache.set e.name (jenkins_get_md5 k st e.name),
                calls := st.calls + 2 }
    else { st with calls := st.calls + 1 }) with hst1
  by_cases hc : (st1.cache.has_changed e.name e.md5 || ig) = true
  · rw [if_pos hc]
    show ((jenkins_upsert k e.name e.md5 st1).cache.set e.name e.md5).lookup e.name = some e.md5
    exact CacheStorage.lookup_set_self _ _ _
  · rw [if_neg hc]
    show st1.cache.lookup e.name = some e.md5
    have ha : st1.cache.has_changed e.name e.md5 = false := by
      cases h : st1.cache.has_changed e.name e.md5 with
      | false => rfl
      | true => exact absurd (by rw [h, Bool.true_or]) hc
    exact (CacheStorage.has_changed_eq_false_iff _ _ _).mp ha

theorem reconcileEntity_frame (k : Kind) (ig : Bool) (e : Entity) (st : UState)
    (n : String) (hn : n ≠ e.name) :
    (reconcileEntity k ig e st).1.cache.lookup n = st.cache.lookup n := by
  simp only [reconcileEntity]
  set st1 := (if jenkins_exists k st e.name && !(st.cache.is_cached e.name) then
      { st with cache := st.cache.set e.name (jenkins_get_md5 k st e.name),
                calls := st.calls + 2 }
    else { st with calls := st.calls + 1 }) with hst1
  have hst1n : st1.cache.lookup n = st.cache.lookup n := by
    rw [hst1]
    by_cases hcnd : (jenkins_exists k st e.name && !(st.cache.is_cached e.name)) = true
    · rw [if_pos hcnd]
      show (st.cache.set e.name (jenkins_get_md5 k st e.name)).lookup n = st.cache.lookup n
      exact CacheStorage.lookup_set_ne _ _ _ _ hn
    · rw [if_neg hcnd]
  by_cases hc : (st1.cache.has_changed e.name e.md5 || ig) = true
  · rw [if_pos hc]
    show ((jenkins_upsert k e.name e.md5 st1).cache.set e.name e.md5).lookup n
        = st.cache.lookup n
    rw [CacheStorage.lookup_set_ne _ _ _ _ hn]
    exact hst1n
  · rw [if_neg hc]
    exact hst1n

theorem entityLoop_noout_spec (k : Kind) (ig : Bool) :
    ∀ (es : List Entity) (st : UState) (count : Nat),
      (es.map Entity.name).Nodup →
      ∃ st2 c2, entityLoop k ig none es st count = .ok (st2, some c2)
        ∧ (∀ e ∈ es, st2.cache.lookup e.name = some e.md5)
        ∧ (∀ n, n ∉ es.map Entity.name → st2.cache.lookup n = st.cache.lookup n) := by
  intro es
  induction es with
  | nil =>
    intro st count _
    exact ⟨st, count, rfl, by simp, fun n _ => rfl⟩
  | cons e rest ih =>
    intro st count hnd
    rw [List.map_cons, List.nodup_cons] at hnd
    obtain ⟨st2, c2, hrun, hpost, hframe⟩ :=
      ih (reconcileEntity k ig e st).1 (count + (reconcileEntity k ig e st).2) hnd.2
    refine ⟨st2, c2, ?_, ?_, ?_⟩
    · simp only [entityLoop]
      exact hrun
    · intro e2 he2
      rcases List.mem_cons.mp he2 with he | he

      · subst he
        rw [hframe e2.name hnd.1]
        exact reconcileEntity_post k ig e2 st
      · exact hpost e2 he
    · intro n hn
      rw [List.map_cons, List.mem_cons] at hn
      push_neg at hn
      rw [hframe n hn.2]
      exact reconcileEntity_frame k ig e st n hn.1

theorem entityLoop_skip (k : Kind) :
    ∀ (es : List Entity) (st : UState) (count : Nat),
      (∀ e ∈ es, st.cache.lookup e.name = some e.md5) →
      entityLoop k false none es st count
        = .ok ({ st with calls := st.calls + es.length }, some count) := by
  intro es
  induction es with
  | nil => intro st count _; rfl
  | cons e rest ih =>
    intro st count h
    simp only [entityLoop]
    rw [reconcileEntity_skip k e st (h e (List.mem_cons_self e rest))]
    show entityLoop k false none rest { st with calls := st.calls + 1 } count = _
    rw [ih { st with calls := st.calls + 1 } count
      (fun e2 he2 => h e2 (List.mem_cons_of_mem e he2))]
    show Except.ok (({ st with calls := st.calls + 1 + rest.length } : UState), some count) = _
    have harith : st.calls + 1 + rest.length = st.calls + (rest.length + 1) := by omega
    rw [harith]
    rfl

/-- C2 (amended): reconciling the same desired set twice with no
remote-side changes and the force flag off issues zero upserts on the
second run, provided no two desired entities — in particular no job and
view — share a name: the second run returns zero updated counts, and its
final state differs from the first run's only in the ghost call counter
(the upsert log, cache and remote state are untouched). -/
theorem claim_C2_second_run (jobs views : List Entity) (st st1 : UState) (r1 : UpdateResult)
    (hnd : ((jobs ++ views).map Entity.name).Nodup)
    (h1 : update_job jobs views none false st = .ok (st1, some r1)) :
    update_job jobs views none false st1
      = .ok ({ st1 with calls := st1.calls + jobs.length + views.length },
             some ⟨sortByName jobs, sortByName views, 0, 0⟩) := by
  rw [List.map_append, List.nodup_append] at hnd
  obtain ⟨hndJ, hndV, hdisj⟩ := hnd
  have hpJ : List.Perm (sortByName jobs) jobs := List.perm_insertionSort entLe jobs
  have hpV : List.Perm (sortByName views) views := List.perm_insertionSort entLe views
  have hpJn : List.Perm ((sortByName jobs).map Entity.name) (jobs.map Entity.name) := hpJ.map _
  have hpVn : List.Perm ((sortByName views).map Entity.name) (views.map Entity.name) := hpV.map _
  have hndJs : ((sortByName jobs).map Entity.name).Nodup := hpJn.nodup_iff.mpr hndJ
  have hndVs : ((sortByName views).map Entity.name).Nodup := hpVn.nodup_iff.mpr hndV
  obtain ⟨stA, cA, hA, hpostA, hframeA⟩ :=
    entityLoop_noout_spec .job false (sortByName jobs) st 0 hndJs
  obtain ⟨stB, cB, hB, hpostB, hframeB⟩ :=
    entityLoop_noout_spec .view false (sortByName views) stA 0 hndVs
  have hupd : update_job jobs views none false st
      = .ok (stB, some ⟨sortByName jobs, sortByName views, cA, cB⟩) := by
    unfold update_job
    simp only [hA, hB]
  rw [hupd] at h1
  have hst1 : st1 = stB := by
    injection h1 with h1'
    injection h1' with ha hb
    exact ha.symm
  subst hst1
  have hIJ : ∀ e ∈ sortByName jobs, st1.cache.lookup e.name = some e.md5 := by
    intro e he
    have hnm : e.name ∉ List.map Entity.name (sortByName views) := by
      intro hmem
      have h1m : e.name ∈ jobs.map Entity.name :=
        hpJn.mem_iff.mp (List.mem_map_of_mem Entity.name he)
      have h2m : e.name ∈ views.map Entity.name := hpVn.mem_iff.mp hmem
      exact hdisj h1m h2m
    rw [hframeB e.name hnm]
    exact hpostA e he
  have hA2 := entityLoop_skip .job (sortByName jobs) st1 0 hIJ
  have hB2 := entityLoop_skip .view (sortByName views)
    { st1 with calls := st1.calls + (sortByName jobs).length } 0
    (fun e he => hpostB e he)
  unfold update_job
  simp only [hA2, hB2]
  show Except.ok
      (({ st1 with calls := st1.calls + (sortByName jobs).length + (sortByName views).length } : UState),
        some (⟨sortByName jobs, sortByName views, 0, 0⟩ : UpdateResult)) = _
  rw [hpJ.length_eq, hpV.length_eq]

/-- A desired job for the idempotence witness. -/
def jobsW : List Entity := [⟨"job-x", "hx"⟩]

/-- A desired view for the idempotence witness. -/
def viewsW : List Entity := [⟨"view-y", "hy"⟩]

/-- A fresh reconciler state over an empty cache and an empty server. -/
def stW0 : UState := initU ⟨[]⟩ ⟨[], []⟩

/-- The state after reconciling `jobsW`/`viewsW` once from `stW0`. -/
def stW1 : UState :=
  ⟨⟨[("view-y", "hy"), ("job-x", "hx")]⟩, ⟨[("job-x", "hx")], [("view-y", "hy")]⟩,
    [(.job, "job-x"), (.view, "view-y")], 4, [], 0⟩

/-- C2 witness: the theorem instantiated on a one-job one-view desired
set — the second run reports zero updated jobs and views and leaves the
upsert log, cache and remote state untouched. -/
theorem claim_C2_second_run_witness :
    update_job jobsW viewsW none false stW1
      = .ok ({ stW1 with calls := stW1.calls + jobsW.length + viewsW.length },
             some ⟨sortByName jobsW, sortByName viewsW, 0, 0⟩) :=
  claim_C2_second_run jobsW viewsW stW0 stW1 ⟨jobsW, viewsW, 1, 1⟩ (by decide) rfl

/-- A desired job named dup. -/
def jobsD : List Entity := [⟨"dup", "h1"⟩]

/-- A desired view also named dup, with a different content hash. -/
def viewsD : List Entity := [⟨"dup", "h2"⟩]

/-- The state after reconciling `jobsD`/`viewsD` once from a fresh state. -/
def stD1 : UState :=
  ⟨⟨[("dup", "h2"), ("dup", "h1")]⟩, ⟨[("dup", "h1")], [("dup", "h2")]⟩,
    [(.job, "dup"), (.view, "dup")], 4, [], 0⟩

/-- The state after reconciling `jobsD`/`viewsD` a second time. -/
def stD2 : UState :=
  ⟨⟨[("dup", "h2"), ("dup", "h1"), ("dup", "h2"), ("dup", "h1")]⟩,
    ⟨[("dup", "h1"), ("dup", "h1")], [("dup", "h2"), ("dup", "h2")]⟩,
    [(.job, "dup"), (.view, "dup"), (.job, "dup"), (.view, "dup")], 8, [], 0⟩

/-- C2 counterexample: the cache is keyed by name alone and shared
between the job pass and the view pass, so a job and a view that share
the name dup but have different content hashes defeat idempotence —
the second run (same desired set, no remote-side changes, force flag
off) issues one job upsert and one view upsert (counts 1 and 1, two new
entries in the upsert log), not zero. -/
theorem claim_C2_counterexample :
    update_job jobsD viewsD none false (initU ⟨[]⟩ ⟨[], []⟩)
      = .ok (stD1, some ⟨jobsD, viewsD, 1, 1⟩)
    ∧ update_job jobsD viewsD none false stD1 = .ok (stD2, some ⟨jobsD, viewsD, 1, 1⟩)
    ∧ stD2.upserts ≠ stD1.upserts
    ∧ stD2.upserts.length = stD1.upserts.length + 2 := by
  refine ⟨rfl, rfl, ?_, rfl⟩
  decide

theorem update_job_eq_of_loops {jobs views : List Entity} {out : Option Output} {ig : Bool}
    {st stA stB : UState} {uj uv : Nat}
    (hA : entityLoop .job ig out (sortByName jobs) st 0 = .ok (stA, some uj))
    (hB : entityLoop .view ig out (sortByName views) stA 0 = .ok (stB, some uv)) :
    update_job jobs views out ig st
      = .ok (stB, some ⟨sortByName jobs, sortByName views, uj, uv⟩) := by
  unfold update_job
  simp only [hA, hB]

theorem entityLoop_out_spec (k : Kind) (ig : Bool) (o : Output) (hok : writesOk o) :
    ∀ (es : List Entity) (st : UState) (count : Nat),
      entityLoop k ig (some o) es st count
        = .ok ({ st with
                   written := st.written ++ es,
                   writeIdx := st.writeIdx + streamCount o es.length }, some count) := by
  intro es
  induction es with
  | nil =>
    intro st count
    show Except.ok (st, some count) = _
    cases o with
    | dir => simp [streamCount]
    | stream f => simp [streamCount]
  | cons e rest ih =>
    intro st count
    simp only [entityLoop]
    have hw : (st.written ++ [e]) ++ rest = st.written ++ (e :: rest) := by simp
    cases o with
    | dir =>
      simp only [write_xml]
      rw [ih]
      show Except.ok (({ st with written := (st.written ++ [e]) ++ rest } : UState), some count)
          = Except.ok (({ st with written := st.written ++ (e :: rest) } : UState), some count)
      rw [hw]
    | stream f =>
      have hf : f st.writeIdx = WriteOutcome.ok := hok st.writeIdx
      simp only [write_xml, hf]
      rw [ih]
      have harith : st.writeIdx + 1 + rest.length = st.writeIdx + (rest.length + 1) := by omega
      show Except.ok (({ st with
              written := (st.written ++ [e]) ++ rest,
              writeIdx := st.writeIdx + 1 + rest.length } : UState), some count)
          = Except.ok (({ st with
              written := st.written ++ (e :: rest),
              writeIdx := st.writeIdx + (rest.length + 1) } : UState), some count)
      rw [hw, harith]

/-- C7 (amended): with an output sink, update_job is a pure render
step — zero remote calls and zero cache mutations occur, the job and
view counts are zero, and the entities are written jobs first then
views, each pass in name-sorted order (sorted permutations of the
desired lists). -/
theorem claim_C7_sink_mode (jobs views : List Entity) (o : Output) (ig : Bool) (st : UState)
    (hok : writesOk o) :
    ∃ st2, update_job jobs views (some o) ig st
        = .ok (st2, some ⟨sortByName jobs, sortByName views, 0, 0⟩)
      ∧ st2.cache = st.cache
      ∧ st2.remote = st.remote
      ∧ st2.upserts = st.upserts
      ∧ st2.calls = st.calls
      ∧ st2.written = st.written ++ sortByName jobs ++ sortByName views
      ∧ List.Sorted entLe (sortByName jobs)
      ∧ List.Sorted entLe (sortByName views)
      ∧ List.Perm (sortByName jobs) jobs
      ∧ List.Perm (sortByName views) views := by
  have hA := entityLoop_out_spec .job ig o hok (sortByName jobs) st 0
  have hB := entityLoop_out_spec .view ig o hok (sortByName views)
    { st with
        written := st.written ++ sortByName jobs,
        writeIdx := st.writeIdx + streamCount o (sortByName jobs).length } 0
  exact ⟨_, update_job_eq_of_loops hA hB, rfl, rfl, rfl, rfl, rfl,
    List.sorted_insertionSort entLe jobs, List.sorted_insertionSort entLe views,
    List.perm_insertionSort entLe jobs, List.perm_insertionSort entLe views⟩

/-- A job named b for the sink-order examples. -/
def bEnt : Entity := ⟨"b", "hb"⟩

/-- A view named a for the sink-order examples. -/
def aEnt : Entity := ⟨"a", "ha"⟩

/-- The state after rendering job b then view a to an all-ok stream. -/
def stC7out : UState := ⟨⟨[]⟩, ⟨[], []⟩, [], 0, [bEnt, aEnt], 2⟩

/-- C7 witness: the theorem instantiated on two jobs given in reverse
name order and one view, against an always-ok stream sink. -/
theorem claim_C7_sink_mode_witness :
    ∃ st2, update_job [bEnt, aEnt] [aEnt] (some (Output.stream fun _ => WriteOutcome.ok))
        false stW0
        = .ok (st2, some ⟨sortByName [bEnt, aEnt], sortByName [aEnt], 0, 0⟩)
      ∧ st2.cache = stW0.cache
      ∧ st2.remote = stW0.remote
      ∧ st2.upserts = stW0.upserts
      ∧ st2.calls = stW0.calls
      ∧ st2.written = stW0.written ++ sortByName [bEnt, aEnt] ++ sortByName [aEnt]
      ∧ List.Sorted entLe (sortByName [bEnt, aEnt])
      ∧ List.Sorted entLe (sortByName [aEnt])
      ∧ List.Perm (sortByName [bEnt, aEnt]) [bEnt, aEnt]
      ∧ List.Perm (sortByName [aEnt]) [aEnt] :=
  claim_C7_sink_mode [bEnt, aEnt] [aEnt] (Output.stream fun _ => WriteOutcome.ok)
    false stW0 (fun _ => rfl)

/-- C7 counterexample: with job b and view a, the sink receives b
before a — jobs are written before views, so the overall write order is
not name-sorted across the two kinds, contrary to the claim that for
two entities named b and a, a is always written first. -/
theorem claim_C7_counterexample :
    update_job [bEnt] [aEnt] (some (Output.stream fun _ => WriteOutcome.ok)) false stW0
      = .ok (stC7out, some ⟨[bEnt], [aEnt], 0, 0⟩)
    ∧ stC7out.written.map Entity.name = ["b", "a"]
    ∧ ¬ entLe bEnt aEnt
    ∧ ¬ List.Sorted entLe stC7out.written := by
  refine ⟨rfl, rfl, by decide, by decide⟩

theorem entityLoop_stream_epipe (k : Kind) (ig : Bool) (outcomes : Nat → WriteOutcome) :
    ∀ (es : List Entity) (st : UState) (count : Nat) (i : Nat),
      i < es.length →
      (∀ m, m < i → outcomes (st.writeIdx + m) = .ok) →
      outcomes (st.writeIdx + i) = .epipe →
      entityLoop k ig (some (.stream outcomes)) es st count
        = .ok (⟨st.cache, st.remote, st.upserts, st.calls,
                st.written ++ es.take i, st.writeIdx + i + 1⟩, none) := by
  intro es
  induction es with
  | nil =>
    intro st count i hi _ _
    exact absurd hi (by simp)
  | cons e rest ih =>
    intro st count i hi hok hep
    cases i with
    | zero =>
      have hep0 : outcomes st.writeIdx = WriteOutcome.epipe := hep
      simp only [entityLoop, write_xml, hep0]
      show Except.ok (({ st with writeIdx := st.writeIdx + 1 } : UState), (none : Option Nat)) = _
      simp only [List.take_zero, List.append_nil]
    | succ i' =>
      have h0 : outcomes st.writeIdx = .ok := hok 0 (Nat.succ_pos i')
      have hi' : i' < rest.length := by
        rw [List.length_cons] at hi
        omega
      simp only [entityLoop, write_xml, h0]
      rw [ih { st with written := st.written ++ [e], writeIdx := st.writeIdx + 1 } count i' hi'
        (fun m hm => by
          show outcomes (st.writeIdx + 1 + m) = .ok
          rw [show st.writeIdx + 1 + m = st.writeIdx + (m + 1) from by omega]
          exact hok (m + 1) (by omega))
        (by
          show outcomes (st.writeIdx + 1 + i') = .epipe
          rw [show st.writeIdx + 1 + i' = st.writeIdx + (i' + 1) from by omega]
          exact hep)]
      have hw : (st.written ++ [e]) ++ rest.take i' = st.written ++ (e :: rest).take (i' + 1) := by
        rw [List.take_succ_cons]
        simp
      have hn2 : st.writeIdx + 1 + i' + 1 = st.writeIdx + (i' + 1) + 1 := by omega
      show Except.ok ((⟨st.cache, st.remote, st.upserts, st.calls,
          (st.written ++ [e]) ++ rest.take i', st.writeIdx + 1 + i' + 1⟩ : UState), (none : Option Nat))
          = Except.ok ((⟨st.cache, st.remote, st.upserts, st.calls,
          st.written ++ (e :: rest).take (i' + 1), st.writeIdx + (i' + 1) + 1⟩ : UState), (none : Option Nat))
      rw [hw, hn2]

theorem entityLoop_stream_ioerr (k : Kind) (ig : Bool) (outcomes : Nat → WriteOutcome) :
    ∀ (es : List Entity) (st : UState) (count : Nat) (i : Nat),
      i < es.length →
      (∀ m, m < i → outcomes (st.writeIdx + m) = .ok) →
      outcomes (st.writeIdx + i) = .ioerr →
      entityLoop k ig (some (.stream outcomes)) es st count = .error .ioError := by
  intro es
  induction es with
  | nil =>
    intro st count i hi _ _
    exact absurd hi (by simp)
  | cons e rest ih =>
    intro st count i hi hok hio
    cases i with
    | zero =>
      have hio0 : outcomes st.writeIdx = WriteOutcome.ioerr := hio
      simp only [entityLoop, write_xml, hio0]
    | succ i' =>
      have h0 : outcomes st.writeIdx = .ok := hok 0 (Nat.succ_pos i')
      have hi' : i' < rest.length := by
        rw [List.length_cons] at hi
        omega
      simp only [entityLoop, write_xml, h0]
      exact ih { st with written := st.written ++ [e], writeIdx := st.writeIdx + 1 } count i' hi'
        (fun m hm => by
          show outcomes (st.writeIdx + 1 + m) = .ok
          rw [show st.writeIdx + 1 + m = st.writeIdx + (m + 1) from by omega]
          exact hok (m + 1) (by omega))
        (by
          show outcomes (st.writeIdx + 1 + i') = .ioerr
          rw [show st.writeIdx + 1 + i' = st.writeIdx + (i' + 1) from by omega]
          exact hio)

/-- C10: in stream-sink mode, after i successful writes, an EPIPE on
the i-th write of the job pass makes update_job stop at once and return
None — only the first i sorted jobs were written, the remaining jobs
and all views are never written, and no result tuple is produced —
while any other I/O error on that write is re-raised. -/
theorem claim_C10_stream_stop (jobs views : List Entity) (outcomes : Nat → WriteOutcome)
    (ig : Bool) (c : CacheStorage) (r : RemoteJV) (i : Nat)
    (hi : i < (sortByName jobs).length)
    (hok : ∀ m, m < i → outcomes m = .ok) :
    (outcomes i = .epipe →
      update_job jobs views (some (.stream outcomes)) ig (initU c r)
        = .ok (⟨c, r, [], 0, (sortByName jobs).take i, i + 1⟩, none))
    ∧ (outcomes i = .ioerr →
      update_job jobs views (some (.stream outcomes)) ig (initU c r) = .error .ioError) := by
  constructor
  · intro hep
    have hA := entityLoop_stream_epipe .job ig outcomes (sortByName jobs) (initU c r) 0 i hi
      (fun m hm => by
        show outcomes (0 + m) = .ok
        rw [Nat.zero_add]
        exact hok m hm)
      (by
        show outcomes (0 + i) = .epipe
        rw [Nat.zero_add]
        exact hep)
    unfold update_job
    simp only [hA]
    show Except.ok ((⟨c, r, [], 0, (sortByName jobs).take i, 0 + i + 1⟩ : UState),
        (none : Option UpdateResult)) = _
    rw [Nat.zero_add]
  · intro hio
    have hA := entityLoop_stream_ioerr .job ig outcomes (sortByName jobs) (initU c r) 0 i hi
      (fun m hm => by
        show outcomes (0 + m) = .ok
        rw [Nat.zero_add]
        exact hok m hm)
      (by
        show outcomes (0 + i) = .ioerr
        rw [Nat.zero_add]
        exact hio)
    unfold update_job
    simp only [hA]

/-- Stream outcomes: first write succeeds, every later write hits EPIPE. -/
def outcomesW1 : Nat → WriteOutcome := fun k => if k = 0 then WriteOutcome.ok else WriteOutcome.epipe

/-- Stream outcomes: every write raises a non-EPIPE IOError. -/
def outcomesW2 : Nat → WriteOutcome := fun _ => WriteOutcome.ioerr

/-- C10 witness: two jobs and a view — an EPIPE on the second write
stops after one written job with no tuple, and a non-EPIPE IOError on
the first write propagates. -/
theorem claim_C10_stream_stop_witness :
    (update_job [aEnt, bEnt] [aEnt] (some (.stream outcomesW1)) false (initU ⟨[]⟩ ⟨[], []⟩)
      = .ok (⟨⟨[]⟩, ⟨[], []⟩, [], 0, (sortByName [aEnt, bEnt]).take 1, 2⟩, none))
    ∧ (update_job [aEnt, bEnt] [aEnt] (some (.stream outcomesW2)) false (initU ⟨[]⟩ ⟨[], []⟩)
      = .error .ioError) := by
  constructor
  · exact (claim_C10_stream_stop [aEnt, bEnt] [aEnt] outcomesW1 false ⟨[]⟩ ⟨[], []⟩ 1
      (by decide)
      (fun m hm => by
        have hm0 : m = 0 := by omega
        subst hm0
        rfl)).1 rfl
  · exact (claim_C10_stream_stop [aEnt, bEnt] [aEnt] outcomesW2 false ⟨[]⟩ ⟨[], []⟩ 0
      (by decide)
      (fun m hm => absurd hm (by omega))).2 rfl

/-- A Python value as the view-emission modules see it in the YAML data
dictionary. -/
inductive PyVal where
  | pstr (s : String)
  | pbool (b : Bool)
  | pint (n : Int)
  | pnone
deriving DecidableEq, Repr

/-- Python's str() on such a value. -/
def pyStr : PyVal → String
  | .pstr s => s
  | .pbool true => "True"
  | .pbool false => "False"
  | .pint n => toString n
  | .pnone => "None"

/-- Python truthiness of such a value. -/
def pyTruthy : PyVal → Bool
  | .pstr s => !(s == "")
  | .pbool b => b
  | .pint n => !(n == 0)
  | .pnone => false

/-- Python truthiness of a string (the branches below test `str(...)`). -/
def strTruthy (s : String) : Bool := !(s == "")

/-- Embedding of `data.get(key, default)`. -/
def dataGet (data : List (String × PyVal)) (key : String) (dflt : PyVal) : PyVal :=
  (data.lookup key).getD dflt

/-- An XML element as xml.etree.ElementTree builds it: tag, attributes,
text and children in document order. -/
inductive XTree where
  | node (tag : String) (attrs : List (String × String)) (text : Option String)
      (children : List XTree)

/-- DeliveryPipeline.root_xml (modules/view_pipeline.py lines 153-238).
Lines 155-229 build the root element (every step total except the
`data['name']` subscript on line 157, which raises KeyError when the
key is absent); then line 231 reads
`xml_jobs = XML.SubElement(view, 'regexpFirstJobs')` where the name
`view` is bound nowhere in the function, so evaluating it raises
NameError and the `return root` on line 238 is never reached. -/
def DeliveryPipeline.root_xml (data : List (String × PyVal)) : Except PyErr XTree :=
  match data.lookup "name" with
  | none => .error .keyError
  | some nameVal =>
    let descChildren : List XTree :=
      match dataGet data "description" .pnone with
      | .pnone => []
      | v => [.node "description" [] (some (pyStr v)) []]
    let CS : XTree := .node "componentSpec" [] none
      [.node "se.diabol.jenkins.pipeline.DeliveryPipelineView_-ComponentSpec" [] none [],
       .node "name" [] (some (pyStr (dataGet data "name" (.pstr "")))) [],
       .node "firstJob" [] (some (pyStr (dataGet data "first-job" (.pstr "")))) [],
       .node "lastJob" [] (some (pyStr (dataGet data "last-job" (.pstr "")))) []]
    let boolText := fun (key : String) =>
      if pyTruthy (dataGet data key (.pbool false)) then "true" else "false"
    let strText := fun (key : String) (yes no : String) =>
      if strTruthy (pyStr (dataGet data key .pnone)) then yes else no
    let root : XTree := .node "se.diabol.jenkins.pipeline.DeliveryPipelineView"
      [("plugin", "delivery-pipeline-plugin")] none
      ([.node "name" [] (some (pyStr nameVal)) []]
        ++ descChildren
        ++ [.node "filterExecutors" [] (some (boolText "filter-executors")) [],
            .node "filterQueue" [] (some (boolText "filter-queue")) [],
            .node "properties" [("class", "hudson.model.View$PropertyList")] none [],
            CS,
            .node "noOfPipelines" [] (some (pyStr (dataGet data "no-of-pipelines" .pnone))) [],
            .node "showAggregatedPipeline" []
              (some (strText "show-aggregated-pipeline" "true" "false")) [],
            .node "noOfColumns" [] (some (pyStr (dataGet data "no-of-columns" .pnone))) [],
            .node "sorting" [] (some (strText "sorting" "true" "none")) [],
            .node "showAvatars" [] (some (strText "show-avatars" "true" "false")) [],
            .node "updateInterval" [] (some (pyStr (dataGet data "update-interval" .pnone))) [],
            .node "showChanges" [] (some (strText "show-changes" "true" "false")) [],
            .node "allowManualTriggers" []
              (some (strText "allow-manual-triggers" "true" "false")) [],
            .node "showTotalBuildTime" []
              (some (strText "show-total-build-time" "true" "false")) [],
            .node "allowRebuild" [] (some (strText "allow-rebuild" "true" "false")) [],
            .node "allowPipelineStart" []
              (some (strText "allow-pipeline-start" "true" "false")) [],
            .node "showDescription" [] (some (strText "show-description" "true" "false")) [],
            .node "showPromotions" [] (some (strText "show-promotions" "true" "false")) [],
            .node "showTestResults" [] (some (strText "show-test-results" "true" "false")) [],
            .node "showStaticAnalysisResults" []
              (some (strText "show-static-analysis-results" "true" "false")) [],
            .node "regexpFirstJobs" []
              (some (pyStr (dataGet data "first-job-regexp" .pnone))) []])
    let _ := root
    .error .nameError

/-- C9: DeliveryPipeline.root_xml is not a total function from
declarative data to an XML document — it never returns an element: for
every input dictionary it raises (NameError from the unbound name
`view` on line 231 when the name key is present, KeyError from
`data['name']` when it is absent). -/
theorem claim_C9_root_xml_never_returns (data : List (String × PyVal)) :
    (∀ t, DeliveryPipeline.root_xml data ≠ .ok t)
    ∧ DeliveryPipeline.root_xml [("name", PyVal.pstr "v")] = .error .nameError
    ∧ DeliveryPipeline.root_xml [] = .error .keyError := by
  refine ⟨?_, rfl, rfl⟩
  intro t h
  unfold DeliveryPipeline.root_xml at h
  cases hl : data.lookup "name" with
  | none =>
    rw [hl] at h
    exact Except.noConfusion h
  | some v =>
    rw [hl] at h
    exact Except.noConfusion h

end JenkinsJobs
